import Mathlib

/-!
Verification of the Transfer-Learning-Library domain-generalization code
(MixStyle backbone augmentation and the multi-domain CORAL training loop).

The development shallowly embeds the two source files:
  * `dglib/generalization/mixstyle/models/resnet.py`
      (`_resnet_with_mix_style` and the inner `ResNetWithMixStyleModule`)
  * `examples/domain_generalization/classification/coral.py`
      (`main`, `train`, `validate`)
Machine-level tensor contents are abstracted: per-domain cross-entropy
values and pairwise CORAL values are opaque rationals, forward passes are
traced as sequences of named operations, and parameter states are opaque.
The control flow, loop structure, arithmetic, assertions and checkpoint
logic are translated statement by statement from the Python source.
-/

set_option autoImplicit false

namespace TLLib

/-! ### Python scalar division

Python `a / b` on scalars raises `ZeroDivisionError` when `b == 0`;
we model the raising division as an `Option`-valued operation.
(In `train`, the divisors are plain Python scalars whenever they can be
zero: with a single domain `loss_penalty` is still the int `0`, so the
scalar division is the semantics that applies.) -/

def pyDiv (a b : ℚ) : Option ℚ :=
  if b = 0 then none else some (a / b)

/-! ### coral.py `train`: one iteration of the loss computation

From `train` (coral.py, lines 169-188):

    loss_ce = 0
    loss_penalty = 0
    for domain_i in range(num_domains):
        y_i, labels_i = y_all[domain_i], labels_all[domain_i]
        loss_ce += F.cross_entropy(y_i, labels_i)
        for domain_j in range(domain_i + 1, num_domains):
            f_i = f_all[domain_i]
            f_j = f_all[domain_j]
            loss_penalty += correlation_alignment_loss(f_i, f_j)
    loss_ce /= num_domains
    loss_penalty /= num_domains * (num_domains - 1) / 2
    loss = loss_ce + loss_penalty * args.trade_off

The per-domain cross-entropy values and the pairwise CORAL values are
abstracted as functions `ce : ℕ → ℚ` and `coral : ℕ → ℕ → ℚ` of the
domain indices.  Python `range(a, b)` is `List.range' a (b - a)`. -/

def trainIterationAccum (D : ℕ) (ce : ℕ → ℚ) (coral : ℕ → ℕ → ℚ) : ℚ × ℚ :=
  (List.range D).foldl
    (fun acc domain_i =>
      (acc.1 + ce domain_i,
       (List.range' (domain_i + 1) (D - (domain_i + 1))).foldl
         (fun a domain_j => a + coral domain_i domain_j) acc.2))
    (0, 0)

def trainIterationLoss (D : ℕ) (ce : ℕ → ℚ) (coral : ℕ → ℕ → ℚ)
    (trade_off : ℚ) : Option ℚ := do
  let acc := trainIterationAccum D ce coral
  let loss_ce ← pyDiv acc.1 (D : ℚ)
  let loss_penalty ← pyDiv acc.2 ((D : ℚ) * ((D : ℚ) - 1) / 2)
  pure (loss_ce + loss_penalty * trade_off)

/-- The list of (domain_i, domain_j) pairs visited by the nested loops of
`train`, i.e. all pairs with `domain_i < domain_j < D` in loop order. -/
def pairIndexList (D : ℕ) : List (ℕ × ℕ) :=
  (List.range D).flatMap
    (fun domain_i =>
      (List.range' (domain_i + 1) (D - (domain_i + 1))).map
        (fun domain_j => (domain_i, domain_j)))

/-- An epoch of `train` runs `iters_per_epoch` iterations; each iteration
recomputes the combined loss (its inputs may differ per iteration), and a
`ZeroDivisionError` in any iteration aborts the epoch.  `ce it` and
`coral it` are the per-iteration loss inputs. -/
def trainEpochLosses (D iters_per_epoch : ℕ) (ce : ℕ → ℕ → ℚ)
    (coral : ℕ → ℕ → ℕ → ℚ) (trade_off : ℚ) : Option (List ℚ) :=
  (List.range iters_per_epoch).mapM
    (fun it => trainIterationLoss D (ce it) (coral it) trade_off)

/-! ### coral.py `train`: per-domain chunking (`tensor.chunk`)

From `train` (coral.py, lines 164-167):

    y_all = y_all.chunk(num_domains, dim=0)
    f_all = f_all.chunk(num_domains, dim=0)
    labels_all = labels_all.chunk(num_domains, dim=0)

`torch.Tensor.chunk(n, dim=0)` splits along dimension 0 into contiguous
pieces of size `ceil(len / n)` each (the last piece possibly shorter),
preserving order.  We model dimension 0 of a tensor as a list of rows. -/

def chunkGo {α : Type} : ℕ → ℕ → List α → List (List α)
  | 0, _, _ => []
  | _ + 1, _, [] => []
  | fuel + 1, sz, x :: xs => (x :: xs).take sz :: chunkGo fuel sz ((x :: xs).drop sz)

def torchChunk {α : Type} (rows : List α) (n : ℕ) : List (List α) :=
  chunkGo rows.length ((rows.length + n - 1) / n) rows

/-! ### mixstyle/models/resnet.py: the augmented forward pass

`_resnet_with_mix_style` dynamically subclasses either `ResNet` or
`ReidResNet`; the subclass's `forward` is (resnet.py, lines 39-58):

    x = self.conv1(x); x = self.bn1(x)
    if resnet_class != ReidResNet: x = self.relu(x)
    x = self.maxpool(x)
    x = self.layer1(x)
    if 'layer1' in self.apply_layers: x = self.mixStyleModule(x)
    x = self.layer2(x)
    if 'layer2' in self.apply_layers: x = self.mixStyleModule(x)
    x = self.layer3(x)
    if 'layer3' in self.apply_layers: x = self.mixStyleModule(x)
    x = self.layer4(x)
    return x

We record the forward pass as the trace of modules applied, in order. -/

inductive RClass where
  | resNet : RClass
  | reidResNet : RClass
deriving DecidableEq

inductive Stage where
  | conv1 | bn1 | relu | maxpool | layer1 | layer2 | layer3 | layer4
deriving DecidableEq

inductive FwdOp where
  | stage : Stage → FwdOp
  | mixStyle : FwdOp
deriving DecidableEq

def forwardTrace (resnet_class : RClass) (apply_layers : List String) :
    List FwdOp :=
  [FwdOp.stage .conv1, FwdOp.stage .bn1]
    ++ (if resnet_class ≠ RClass.reidResNet then [FwdOp.stage .relu] else [])
    ++ [FwdOp.stage .maxpool, FwdOp.stage .layer1]
    ++ (if "layer1" ∈ apply_layers then [FwdOp.mixStyle] else [])
    ++ [FwdOp.stage .layer2]
    ++ (if "layer2" ∈ apply_layers then [FwdOp.mixStyle] else [])
    ++ [FwdOp.stage .layer3]
    ++ (if "layer3" ∈ apply_layers then [FwdOp.mixStyle] else [])
    ++ [FwdOp.stage .layer4]

/-- The backbone stages, in the order `forward` runs them (the relu after
bn1 is skipped for the reid variant). -/
def stageSeq (resnet_class : RClass) : List Stage :=
  [.conv1, .bn1]
    ++ (if resnet_class ≠ RClass.reidResNet then [.relu] else [])
    ++ [.maxpool, .layer1, .layer2, .layer3, .layer4]

/-- The Python attribute name of each stage, used in `apply_layers`. -/
def stageName : Stage → String
  | .conv1 => "conv1"
  | .bn1 => "bn1"
  | .relu => "relu"
  | .maxpool => "maxpool"
  | .layer1 => "layer1"
  | .layer2 => "layer2"
  | .layer3 => "layer3"
  | .layer4 => "layer4"

/-! ### mixstyle/models/resnet.py: `_resnet_with_mix_style` construction

From resnet.py, lines 25-37:

    if mix_layers is None:
        mix_layers = []
    available_resnet_class = [ResNet, ReidResNet]
    assert resnet_class in available_resnet_class
    class ResNetWithMixStyleModule(resnet_class):
        def __init__(self, mix_layers, ...):
            super().__init__(...)
            self.mixStyleModule = MixStyle(p=mix_p, alpha=mix_alpha)
            for layer in mix_layers:
                assert layer in ['layer1', 'layer2', 'layer3']
            self.apply_layers = mix_layers

The `resnet_class` argument is an arbitrary Python class; we model it as
either one of the two importable classes or some other class. -/

inductive PyClass where
  | resNet : PyClass
  | reidResNet : PyClass
  | other : String → PyClass
deriving DecidableEq

def available_resnet_class : List PyClass := [.resNet, .reidResNet]

/-- The `for layer in mix_layers: assert layer in [...]` loop;
`Except.error` models the `AssertionError`. -/
def checkMixLayers : List String → Except String Unit
  | [] => .ok ()
  | layer :: rest =>
    if layer ∈ ["layer1", "layer2", "layer3"]
    then checkMixLayers rest
    else .error "AssertionError: layer"

structure MixStyleModel where
  resnet_class : PyClass
  apply_layers : List String
  mix_p : ℚ
  mix_alpha : ℚ

def resnet_with_mix_style (resnet_class : PyClass)
    (mix_layers : Option (List String)) (mix_p mix_alpha : ℚ) :
    Except String MixStyleModel :=
  let ml := mix_layers.getD []
  if resnet_class ∈ available_resnet_class then
    match checkMixLayers ml with
    | .ok _ => .ok ⟨resnet_class, ml, mix_p, mix_alpha⟩
    | .error e => .error e
  else .error "AssertionError: resnet_class"

/-! ### mixstyle/models/resnet.py: pretrained weight loading

From resnet.py, lines 62-68:

    if pretrained:
        model_dict = model.state_dict()
        pretrained_dict = load_state_dict_from_url(model_urls[arch], ...)
        # remove keys from pretrained dict that doesn't appear in model dict
        pretrained_dict = {k: v for k, v in pretrained_dict.items() if k in model_dict}
        model.load_state_dict(pretrained_dict, strict=False)

State dicts are modelled as association lists with distinct keys
irrelevant to the claims; weight tensors are opaque rationals. -/

def StateDict : Type := List (String × ℚ)

def dictKeys (d : StateDict) : List String := d.map Prod.fst

/-- The dict comprehension `{k: v for k, v in pretrained_dict.items() if k in model_dict}`. -/
def filterToModelKeys (pretrained_dict model_dict : StateDict) : StateDict :=
  pretrained_dict.filter (fun kv => (dictKeys model_dict).contains kv.1)

/-- Models `torch.nn.Module.load_state_dict(sd, strict)`: every model
parameter whose key occurs in `sd` is overwritten with the value from
`sd`; the rest keep their current value.  With `strict=True` the call
raises when `sd` is missing model keys or has unexpected keys; with
`strict=False` those are merely reported, never raised. -/
def load_state_dict (model_dict sd : StateDict) (strict : Bool) :
    Except String StateDict :=
  let missing := (dictKeys model_dict).any (fun k => !(dictKeys sd).contains k)
  let unexpected := (dictKeys sd).any (fun k => !(dictKeys model_dict).contains k)
  if strict && (missing || unexpected) then
    .error "RuntimeError: Error(s) in loading state_dict"
  else
    .ok (model_dict.map (fun kv =>
      match sd.lookup kv.1 with
      | some w => (kv.1, w)
      | none => kv))

/-! ### coral.py `main`: per-epoch checkpointing and model selection

From `main` (coral.py, lines 108-125):

    best_val_acc1 = 0.
    best_test_acc1 = 0.
    for epoch in range(args.epochs):
        train(...)
        acc1 = validate(val_loader, classifier, args)
        torch.save(classifier.state_dict(), logger.get_checkpoint_path('latest'))
        if acc1 > best_val_acc1:
            shutil.copy(logger.get_checkpoint_path('latest'), logger.get_checkpoint_path('best'))
        best_val_acc1 = max(acc1, best_val_acc1)
        best_test_acc1 = max(best_test_acc1, validate(test_loader, classifier, args))

Parameter states are opaque (`P`); each epoch is summarised by the
parameter state after `train`, the source-validation accuracy `acc1`,
and the target-domain test accuracy. -/

structure Epoch (P : Type) where
  params : P
  valAcc : ℚ
  testAcc : ℚ

structure SelState (P : Type) where
  latest : Option P
  best : Option P
  best_val_acc1 : ℚ
  best_test_acc1 : ℚ

def initSelState (P : Type) : SelState P :=
  { latest := none, best := none, best_val_acc1 := 0, best_test_acc1 := 0 }

def epochCheckpoint {P : Type} (s : SelState P) (e : Epoch P) : SelState P :=
  let latest := some e.params
  let best := if e.valAcc > s.best_val_acc1 then latest else s.best
  { latest := latest
    best := best
    best_val_acc1 := max e.valAcc s.best_val_acc1
    best_test_acc1 := max s.best_test_acc1 e.testAcc }

def runEpochs {P : Type} (es : List (Epoch P)) : SelState P :=
  es.foldl epochCheckpoint (initSelState P)

/-- The highest source-validation accuracy observed over a run prefix,
starting from the initialisation `best_val_acc1 = 0.`. -/
def maxValAcc {P : Type} (es : List (Epoch P)) : ℚ :=
  es.foldl (fun m e => max e.valAcc m) 0

/-! ### coral.py `train`: optimizer and scheduler stepping

From `train` (coral.py, lines 153-199): the body of
`for i in range(args.iters_per_epoch)` ends with

    optimizer.zero_grad()
    loss.backward()
    optimizer.step()
    lr_scheduler.step()

We record these four calls, per iteration, as a trace of actions. -/

inductive TrainAction where
  | zeroGrad | backward | optStep | schedStep
deriving DecidableEq

def iterationActions : List TrainAction :=
  [.zeroGrad, .backward, .optStep, .schedStep]

def epochActions (iters_per_epoch : ℕ) : List TrainAction :=
  (List.range iters_per_epoch).flatMap (fun _ => iterationActions)

/-! ## Helper lemmas -/

theorem foldl_add_map {α : Type} (g : α → ℚ) :
    ∀ (l : List α) (a : ℚ), l.foldl (fun x y => x + g y) a = a + (l.map g).sum := by
  intro l
  induction l with
  | nil => intro a; simp
  | cons x xs ih => intro a; simp [ih, add_assoc]

theorem sum_range_sub_succ (n : ℕ) :
    ((List.range n).map (fun i => n - (i + 1))).sum = (List.range n).sum := by
  have h : (List.range n).map (fun i => n - (i + 1)) = (List.range n).reverse := by
    rw [List.range_eq_range', List.reverse_range', List.range_eq_range']
    apply List.map_congr_left
    intro x _
    omega
  rw [h, List.sum_reverse]

theorem sum_range_mul_two (n : ℕ) : (List.range n).sum * 2 = n * (n - 1) := by
  induction n with
  | zero => rfl
  | succ m ih =>
    rw [List.range_succ, List.sum_append, Nat.add_mul, ih]
    cases m with
    | zero => rfl
    | succ k =>
      simp only [List.sum_cons, List.sum_nil, Nat.succ_sub_one]
      ring

theorem pairIndexList_length_mul_two (D : ℕ) :
    (pairIndexList D).length * 2 = D * (D - 1) := by
  rw [pairIndexList, List.length_flatMap]
  have h1 : List.map (List.length ∘ fun domain_i =>
        (List.range' (domain_i + 1) (D - (domain_i + 1))).map
          (fun domain_j => (domain_i, domain_j))) (List.range D)
      = (List.range D).map (fun i => D - (i + 1)) := by
    apply List.map_congr_left
    intro x _
    simp
  rw [h1, sum_range_sub_succ, sum_range_mul_two]

theorem pairIndexList_length (D : ℕ) :
    (pairIndexList D).length = D * (D - 1) / 2 := by
  have h := pairIndexList_length_mul_two D
  omega

theorem mem_pairIndexList (D : ℕ) (p : ℕ × ℕ) :
    p ∈ pairIndexList D ↔ p.1 < p.2 ∧ p.2 < D := by
  constructor
  · intro hp
    rw [pairIndexList, List.mem_flatMap] at hp
    obtain ⟨i, hi, hp⟩ := hp
    rw [List.mem_map] at hp
    obtain ⟨j, hj, rfl⟩ := hp
    rw [List.mem_range'_1] at hj
    rw [List.mem_range] at hi
    exact ⟨by omega, by omega⟩
  · intro h
    rw [pairIndexList, List.mem_flatMap]
    refine ⟨p.1, List.mem_range.mpr (by omega), ?_⟩
    rw [List.mem_map]
    refine ⟨p.2, List.mem_range'_1.mpr (by omega), ?_⟩
    exact Prod.mk.eta

theorem trainAccumGo_eq (D : ℕ) (ce : ℕ → ℚ) (coral : ℕ → ℕ → ℚ) :
    ∀ (l : List ℕ) (a b : ℚ),
      l.foldl (fun acc domain_i =>
          (acc.1 + ce domain_i,
           (List.range' (domain_i + 1) (D - (domain_i + 1))).foldl
             (fun x domain_j => x + coral domain_i domain_j) acc.2)) (a, b)
        = (a + (l.map ce).sum,
           b + ((l.flatMap (fun domain_i =>
                  (List.range' (domain_i + 1) (D - (domain_i + 1))).map
                    (fun domain_j => (domain_i, domain_j)))).map
                (fun p => coral p.1 p.2)).sum) := by
  intro l
  induction l with
  | nil => intro a b; simp
  | cons i l ih =>
    intro a b
    simp only [List.foldl_cons]
    rw [foldl_add_map (coral i), ih]
    simp only [List.map_cons, List.sum_cons, List.flatMap_cons, List.map_append,
      List.sum_append, List.map_map, Prod.mk.injEq]
    constructor
    · ring
    · have h : ((List.range' (i + 1) (D - (i + 1))).map
          ((fun p : ℕ × ℕ => coral p.1 p.2) ∘ fun domain_j => (i, domain_j)))
          = (List.range' (i + 1) (D - (i + 1))).map (coral i) := by
        apply List.map_congr_left
        intro x _
        rfl
      rw [h]
      ring

theorem trainIterationAccum_eq (D : ℕ) (ce : ℕ → ℚ) (coral : ℕ → ℕ → ℚ) :
    trainIterationAccum D ce coral =
      (((List.range D).map ce).sum,
       ((pairIndexList D).map (fun p => coral p.1 p.2)).sum) := by
  rw [trainIterationAccum, trainAccumGo_eq, pairIndexList]
  simp

theorem chunkGo_eq {α : Type} (k : ℕ) (hkpos : 0 < k) :
    ∀ (D fuel : ℕ) (xs : List α), D ≤ fuel → xs.length = D * k →
      chunkGo fuel k xs = (List.range D).map (fun i => (xs.drop (i * k)).take k) := by
  intro D
  induction D with
  | zero =>
    intro fuel xs _ hlen
    have hnil : xs = [] := List.eq_nil_of_length_eq_zero (by simpa using hlen)
    subst hnil
    cases fuel <;> simp [chunkGo]
  | succ D ih =>
    intro fuel xs hf hlen
    obtain ⟨f, rfl⟩ : ∃ f, fuel = f + 1 := ⟨fuel - 1, by omega⟩
    rw [Nat.succ_mul] at hlen
    obtain ⟨x, xs', rfl⟩ : ∃ x xs', xs = x :: xs' := by
      cases xs with
      | nil => simp at hlen; omega
      | cons x xs' => exact ⟨x, xs', rfl⟩
    rw [chunkGo]
    have hdroplen : ((x :: xs').drop k).length = D * k := by
      rw [List.length_drop]
      omega
    rw [ih f _ (by omega) hdroplen, List.range_succ_eq_map, List.map_cons,
      List.map_map]
    simp only [Nat.zero_mul, List.drop_zero]
    congr 1
    apply List.map_congr_left
    intro i _
    simp only [Function.comp_apply, List.drop_drop]
    congr 2
    rw [Nat.succ_mul]
    omega

/-- Torch `tensor.chunk(D, dim=0)` on a nonempty tensor whose dim-0 size
is divisible by `D > 0`: exactly `D` contiguous chunks, each of
`rows.length / D` rows, in order. -/
theorem torchChunk_spec {α : Type} (rows : List α) (D : ℕ) (hD : 0 < D)
    (hN : 0 < rows.length) (hdvd : D ∣ rows.length) :
    torchChunk rows D =
      (List.range D).map
        (fun i => (rows.drop (i * (rows.length / D))).take (rows.length / D)) ∧
    (torchChunk rows D).length = D ∧
    ∀ c ∈ torchChunk rows D, c.length = rows.length / D := by
  obtain ⟨k, hk⟩ := hdvd
  have hkdiv : rows.length / D = k := by
    rw [hk, Nat.mul_div_cancel_left _ hD]
  have hkpos : 0 < k := by
    rcases Nat.eq_zero_or_pos k with h | h
    · rw [h, Nat.mul_zero] at hk
      omega
    · exact h
  have hsz : (rows.length + D - 1) / D = k := by
    have h1 : rows.length + D - 1 = D * k + (D - 1) := by omega
    rw [h1, Nat.mul_add_div hD, Nat.div_eq_of_lt (by omega)]
    omega
  have hchar : torchChunk rows D =
      (List.range D).map (fun i => (rows.drop (i * k)).take k) := by
    rw [torchChunk, hsz]
    refine chunkGo_eq k hkpos D rows.length rows ?_ hk
    rw [hk]
    calc D = D * 1 := (Nat.mul_one D).symm
      _ ≤ D * k := Nat.mul_le_mul_left D hkpos
  rw [hkdiv]
  refine ⟨hchar, ?_, ?_⟩
  · rw [hchar]
    simp
  · intro c hc
    rw [hchar, List.mem_map] at hc
    obtain ⟨i, hi, rfl⟩ := hc
    rw [List.mem_range] at hi
    rw [List.length_take, List.length_drop]
    have hle : i * k + k ≤ rows.length := by
      rw [hk]
      calc i * k + k = (i + 1) * k := (Nat.succ_mul i k).symm
        _ ≤ D * k := Nat.mul_le_mul_right k (by omega)
    omega

/-- C5: for a batch of size `N` evenly divisible by the domain count `D`,
the `chunk` calls of `train` split logits, embeddings and labels into
exactly `D` contiguous chunks of `N / D` rows each, and the `i`-th chunk
of each of the three splits covers the same row range
`[i*(N/D), (i+1)*(N/D))` — domain order is preserved and identical
across the three splits. -/
theorem per_domain_chunking {α β γ : Type} (N D : ℕ)
    (y_all : List α) (f_all : List β) (labels_all : List γ)
    (hy : y_all.length = N) (hf : f_all.length = N) (hl : labels_all.length = N)
    (hD : 0 < D) (hN : 0 < N) (hdvd : D ∣ N) :
    (torchChunk y_all D).length = D ∧
    (torchChunk f_all D).length = D ∧
    (torchChunk labels_all D).length = D ∧
    (∀ c ∈ torchChunk y_all D, c.length = N / D) ∧
    (∀ c ∈ torchChunk f_all D, c.length = N / D) ∧
    (∀ c ∈ torchChunk labels_all D, c.length = N / D) ∧
    torchChunk y_all D =
      (List.range D).map (fun i => (y_all.drop (i * (N / D))).take (N / D)) ∧
    torchChunk f_all D =
      (List.range D).map (fun i => (f_all.drop (i * (N / D))).take (N / D)) ∧
    torchChunk labels_all D =
      (List.range D).map (fun i => (labels_all.drop (i * (N / D))).take (N / D)) := by
  subst hy
  obtain ⟨hcy, hly, hcy2⟩ :=
    torchChunk_spec y_all D hD hN hdvd
  obtain ⟨hcf, hlf, hcf2⟩ :=
    torchChunk_spec f_all D hD (by omega) (by rw [hf]; exact hdvd)
  obtain ⟨hcl, hll, hcl2⟩ :=
    torchChunk_spec labels_all D hD (by omega) (by rw [hl]; exact hdvd)
  rw [hf] at hcf hcf2
  rw [hl] at hcl hcl2
  exact ⟨hly, hlf, hll, hcy2, hcf2, hcl2, hcy, hcf, hcl⟩

/-- Witness for C5: batch of 4 rows, 2 domains. -/
theorem per_domain_chunking_witness :
    ([10, 11, 12, 13] : List ℕ).length = 4 ∧ 0 < 2 ∧ 0 < 4 ∧ 2 ∣ 4 ∧
    (torchChunk ([10, 11, 12, 13] : List ℕ) 2 = [[10, 11], [12, 13]] ∧
     torchChunk ([(5 : ℚ), 6, 7, 8] : List ℚ) 2 = [[5, 6], [7, 8]] ∧
     torchChunk ([true, true, false, false] : List Bool) 2 =
       [[true, true], [false, false]]) := by
  refine ⟨rfl, by omega, by omega, by decide, ?_⟩
  have h := per_domain_chunking 4 2 ([10, 11, 12, 13] : List ℕ)
    ([(5 : ℚ), 6, 7, 8] : List ℚ) ([true, true, false, false] : List Bool)
    rfl rfl rfl (by omega) (by omega) (by decide)
  refine ⟨?_, ?_, ?_⟩
  · rw [h.2.2.2.2.2.2.1]
    rfl
  · rw [h.2.2.2.2.2.2.2.1]
    rfl
  · rw [h.2.2.2.2.2.2.2.2]
    rfl

/-! ## Claims about the training-iteration loss -/

/-- C1: with `D ≥ 2` source domains, one training iteration computes
exactly `D*(D-1)/2` pairwise CORAL terms — one per unordered pair of
distinct domains `(i, j)` with `i < j` — and the combined objective is
`(sum of per-domain cross-entropies)/D + (arithmetic mean of the pairwise
CORAL terms) * trade_off`. -/
theorem coral_combined_loss_is_mean (D : ℕ) (ce : ℕ → ℚ) (coral : ℕ → ℕ → ℚ)
    (trade_off : ℚ) (hD : 2 ≤ D) :
    (pairIndexList D).length = D * (D - 1) / 2 ∧
    (∀ p : ℕ × ℕ, p ∈ pairIndexList D ↔ p.1 < p.2 ∧ p.2 < D) ∧
    trainIterationLoss D ce coral trade_off =
      some (((List.range D).map ce).sum / (D : ℚ)
        + (((pairIndexList D).map (fun p => coral p.1 p.2)).sum
            / ((pairIndexList D).length : ℚ)) * trade_off) := by
  refine ⟨pairIndexList_length D, mem_pairIndexList D, ?_⟩
  have hD0 : (D : ℚ) ≠ 0 := by
    exact_mod_cast (by omega : D ≠ 0)
  have hlen2 : ((pairIndexList D).length : ℚ) * 2 = (D : ℚ) * ((D : ℚ) - 1) := by
    have h1 : ((D : ℚ) - 1) = ((D - 1 : ℕ) : ℚ) := by
      rw [Nat.cast_sub (by omega : 1 ≤ D)]
      simp
    rw [h1]
    exact_mod_cast congrArg (fun n : ℕ => (n : ℚ)) (pairIndexList_length_mul_two D)
  have hlen : ((pairIndexList D).length : ℚ) = (D : ℚ) * ((D : ℚ) - 1) / 2 := by
    linarith
  have hlenpos : 0 < (pairIndexList D).length := by
    have h := pairIndexList_length_mul_two D
    have : 2 ≤ D * (D - 1) := by
      calc 2 = 2 * 1 := rfl
        _ ≤ D * (D - 1) := Nat.mul_le_mul (by omega) (by omega)
    omega
  have hpen : (D : ℚ) * ((D : ℚ) - 1) / 2 ≠ 0 := by
    rw [← hlen]
    exact_mod_cast (by omega : (pairIndexList D).length ≠ 0)
  simp only [trainIterationLoss, trainIterationAccum_eq, pyDiv, hD0, hpen, if_false,
    Option.bind_eq_bind, Option.some_bind, Option.pure_def, Option.some.injEq]
  rw [hlen]

/-- Witness for C1 at `D = 3`, `ce i = i`, `coral i j = i + j`,
`trade_off = 2`. -/
theorem coral_combined_loss_is_mean_witness :
    2 ≤ 3 ∧
    ((pairIndexList 3).length = 3 * (3 - 1) / 2 ∧
     (∀ p : ℕ × ℕ, p ∈ pairIndexList 3 ↔ p.1 < p.2 ∧ p.2 < 3) ∧
     trainIterationLoss 3 (fun i => (i : ℚ)) (fun i j => (i : ℚ) + (j : ℚ)) 2 =
       some (((List.range 3).map (fun i => (i : ℚ))).sum / (3 : ℚ)
         + (((pairIndexList 3).map (fun p => (p.1 : ℚ) + (p.2 : ℚ))).sum
             / ((pairIndexList 3).length : ℚ)) * 2)) :=
  ⟨by omega,
   coral_combined_loss_is_mean 3 (fun i => (i : ℚ)) (fun i j => (i : ℚ) + (j : ℚ)) 2
     (by omega)⟩

/-- C10: with a single source domain, the pair count `D*(D-1)/2` is `0`
and the scalar division normalizing the alignment aggregate raises
`ZeroDivisionError`, so the first training iteration (and hence the whole
epoch) aborts. -/
theorem single_domain_division_by_zero (iters : ℕ) (ce : ℕ → ℕ → ℚ)
    (coral : ℕ → ℕ → ℕ → ℚ) (trade_off : ℚ) (h : 1 ≤ iters) :
    trainIterationLoss 1 (ce 0) (coral 0) trade_off = none ∧
    trainEpochLosses 1 iters ce coral trade_off = none := by
  have hiter : ∀ f g, trainIterationLoss 1 f g trade_off = none := by
    intro f g
    simp [trainIterationLoss, pyDiv]
  refine ⟨hiter _ _, ?_⟩
  obtain ⟨k, rfl⟩ : ∃ k, iters = k + 1 := ⟨iters - 1, by omega⟩
  rw [trainEpochLosses, List.range_succ_eq_map, List.mapM_cons, hiter]
  rfl

/-- Witness for C10 at one iteration per epoch. -/
theorem single_domain_division_by_zero_witness :
    1 ≤ 1 ∧
    (trainIterationLoss 1 ((fun _ _ => 0) 0) ((fun _ _ _ => 0) 0) 1 = none ∧
     trainEpochLosses 1 1 (fun _ _ => 0) (fun _ _ _ => 0) 1 = none) :=
  ⟨by omega,
   single_domain_division_by_zero 1 (fun _ _ => 0) (fun _ _ _ => 0) 1 (by omega)⟩

/-! ## Claims about the augmented forward pass -/

/-- C2: for any insertion set drawn from {layer1, layer2, layer3}, the
forward pass runs the backbone stages in order and applies the MixStyle
transform exactly once immediately after each stage named in the set and
nowhere else; the number of MixStyle applications equals the number of
allowed stage names present in the set, and the trace ends with `layer4`
(so MixStyle is never applied after `layer4`). -/
theorem mixstyle_insertion_points (resnet_class : RClass)
    (apply_layers : List String)
    (hsub : ∀ l ∈ apply_layers, l ∈ ["layer1", "layer2", "layer3"]) :
    forwardTrace resnet_class apply_layers =
      (stageSeq resnet_class).flatMap
        (fun st => FwdOp.stage st ::
          (if stageName st ∈ apply_layers then [FwdOp.mixStyle] else [])) ∧
    (forwardTrace resnet_class apply_layers).count FwdOp.mixStyle =
      (["layer1", "layer2", "layer3"].filter (· ∈ apply_layers)).length ∧
    (forwardTrace resnet_class apply_layers).getLast? =
      some (FwdOp.stage .layer4) := by
  have h1 : ("conv1" ∈ apply_layers) = False :=
    eq_false fun h => by simpa using hsub _ h
  have h2 : ("bn1" ∈ apply_layers) = False :=
    eq_false fun h => by simpa using hsub _ h
  have h3 : ("relu" ∈ apply_layers) = False :=
    eq_false fun h => by simpa using hsub _ h
  have h4 : ("maxpool" ∈ apply_layers) = False :=
    eq_false fun h => by simpa using hsub _ h
  have h5 : ("layer4" ∈ apply_layers) = False :=
    eq_false fun h => by simpa using hsub _ h
  refine ⟨?_, ?_, ?_⟩
  all_goals
    cases resnet_class <;>
    by_cases hl1 : "layer1" ∈ apply_layers <;>
    by_cases hl2 : "layer2" ∈ apply_layers <;>
    by_cases hl3 : "layer3" ∈ apply_layers <;>
    simp [forwardTrace, stageSeq, stageName, h1, h2, h3, h4, h5, hl1, hl2, hl3,
      List.count_append, List.count_cons]

/-- Witness for C2: insertion set {"layer2"} on the classification
backbone — MixStyle fires exactly once, immediately after `layer2`, and
the trace ends with `layer4`. -/
theorem mixstyle_insertion_points_witness :
    (∀ l ∈ ["layer2"], l ∈ ["layer1", "layer2", "layer3"]) ∧
    (forwardTrace RClass.resNet ["layer2"] =
      (stageSeq RClass.resNet).flatMap
        (fun st => FwdOp.stage st ::
          (if stageName st ∈ ["layer2"] then [FwdOp.mixStyle] else [])) ∧
     (forwardTrace RClass.resNet ["layer2"]).count FwdOp.mixStyle =
      (["layer1", "layer2", "layer3"].filter (· ∈ ["layer2"])).length ∧
     (forwardTrace RClass.resNet ["layer2"]).getLast? =
      some (FwdOp.stage .layer4)) :=
  ⟨by decide, mixstyle_insertion_points RClass.resNet ["layer2"] (by decide)⟩

/-- C6: the relu after bn1 is run exactly when the supplied backbone
class is the plain classification `ResNet`, and skipped exactly for
`ReidResNet`; apart from the relu the two traces are identical. -/
theorem relu_skipped_for_reid (apply_layers : List String) :
    (∀ c : RClass,
      FwdOp.stage .relu ∈ forwardTrace c apply_layers ↔ c = RClass.resNet) ∧
    forwardTrace RClass.reidResNet apply_layers =
      (forwardTrace RClass.resNet apply_layers).erase (FwdOp.stage .relu) := by
  constructor
  · intro c
    cases c <;>
    by_cases hl1 : "layer1" ∈ apply_layers <;>
    by_cases hl2 : "layer2" ∈ apply_layers <;>
    by_cases hl3 : "layer3" ∈ apply_layers <;>
    simp [forwardTrace, hl1, hl2, hl3]
  · by_cases hl1 : "layer1" ∈ apply_layers <;>
    by_cases hl2 : "layer2" ∈ apply_layers <;>
    by_cases hl3 : "layer3" ∈ apply_layers <;>
    simp [forwardTrace, hl1, hl2, hl3, List.erase_cons]

/-! ## Claims about model construction and pretrained loading -/

theorem checkMixLayers_ok_iff (ls : List String) :
    checkMixLayers ls = .ok () ↔ ∀ l ∈ ls, l ∈ ["layer1", "layer2", "layer3"] := by
  induction ls with
  | nil => simp [checkMixLayers]
  | cons l rest ih =>
    by_cases hl : l ∈ ["layer1", "layer2", "layer3"]
    · rw [checkMixLayers, if_pos hl, ih]
      constructor
      · intro h l' hl'
        rcases List.mem_cons.mp hl' with rfl | h'
        · exact hl
        · exact h l' h'
      · intro h l' hl'
        exact h l' (List.mem_cons_of_mem _ hl')
    · rw [checkMixLayers, if_neg hl]
      constructor
      · intro h
        exact absurd h (by simp)
      · intro h
        exact absurd (h l (List.mem_cons_self l rest)) hl

/-- C3: `_resnet_with_mix_style` raises an `AssertionError` if and only
if the supplied backbone class is not one of {ResNet, ReidResNet} or some
name in `mix_layers` lies outside {'layer1', 'layer2', 'layer3'};
otherwise construction succeeds. -/
theorem factory_assertion_iff (resnet_class : PyClass)
    (mix_layers : Option (List String)) (mix_p mix_alpha : ℚ) :
    (∃ e, resnet_with_mix_style resnet_class mix_layers mix_p mix_alpha =
        .error e) ↔
      (resnet_class ∉ available_resnet_class ∨
       ∃ l ∈ mix_layers.getD [], l ∉ ["layer1", "layer2", "layer3"]) := by
  have hiff := checkMixLayers_ok_iff (mix_layers.getD [])
  rw [resnet_with_mix_style]
  by_cases hc : resnet_class ∈ available_resnet_class
  · rw [if_pos hc]
    cases hml : checkMixLayers (mix_layers.getD []) with
    | error e =>
      simp only [hc, not_true_eq_false, false_or]
      constructor
      · intro _
        have hnot : ¬ ∀ l ∈ mix_layers.getD [], l ∈ ["layer1", "layer2", "layer3"] := by
          intro hall
          rw [hiff.mpr hall] at hml
          exact absurd hml (by simp)
        push_neg at hnot
        exact hnot
      · intro _
        exact ⟨e, rfl⟩
    | ok u =>
      cases u
      simp only [hc, not_true_eq_false, false_or]
      constructor
      · intro ⟨e, he⟩
        exact absurd he (by simp)
      · intro ⟨l, hmem, hbad⟩
        exact absurd (hiff.mp hml l hmem) hbad
  · rw [if_neg hc]
    simp [hc]

theorem lookup_eq_none_of_not_mem_keys (sd : StateDict) (k : String)
    (hk : k ∉ dictKeys sd) : sd.lookup k = none := by
  induction sd with
  | nil => rfl
  | cons kv rest ih =>
    obtain ⟨k', v⟩ := kv
    rw [dictKeys, List.map_cons] at hk
    have hne : (k == k') = false := by
      rcases h : k == k' with _ | _
      · rfl
      · exact absurd (List.mem_cons_self _ _)
          (by rw [eq_of_beq h] at hk; exact fun hm => hk hm)
    rw [List.lookup_cons, hne]
    exact ih (fun hm => hk (List.mem_cons_of_mem _ hm))

theorem lookup_load_of_lookup_none (sd : StateDict) (k : String)
    (hk : sd.lookup k = none) :
    ∀ model_dict : StateDict,
      (model_dict.map (fun kv =>
        match sd.lookup kv.1 with
        | some w => (kv.1, w)
        | none => kv)).lookup k = model_dict.lookup k := by
  intro model_dict
  induction model_dict with
  | nil => rfl
  | cons kv rest ih =>
    obtain ⟨k', v⟩ := kv
    rcases h : k == k' with _ | _
    · cases hsd : sd.lookup k' <;>
        simp only [List.map_cons, List.lookup_cons, hsd, h, ih]
    · have hkk : k = k' := eq_of_beq h
      subst hkk
      rw [List.map_cons]
      cases hsd : sd.lookup k with
      | none => simp [List.lookup_cons, h]
      | some w => rw [hsd] at hk; exact absurd hk (by simp)

theorem keys_of_filterToModelKeys (pretrained_dict model_dict : StateDict)
    (k : String) (hk : k ∈ dictKeys (filterToModelKeys pretrained_dict model_dict)) :
    k ∈ dictKeys pretrained_dict := by
  rw [dictKeys, List.mem_map] at hk
  obtain ⟨kv, hkv, rfl⟩ := hk
  rw [filterToModelKeys, List.mem_filter] at hkv
  exact List.mem_map.mpr ⟨kv, hkv.1, rfl⟩

/-- C4: with `pretrained=True`, the reference weight dict is first
restricted to keys of the model's own state dict and then loaded with
`strict=False`; the load succeeds (no exception despite keys of the model
missing from the reference set), and every model parameter whose key is
absent from the reference weights — in particular every parameter of the
injected MixStyle module — keeps its constructed value. -/
theorem pretrained_load_preserves_unmatched (pretrained_dict model_dict : StateDict)
    (k : String) (hk : k ∉ dictKeys pretrained_dict) :
    ∃ m', load_state_dict model_dict
            (filterToModelKeys pretrained_dict model_dict) false = .ok m' ∧
          m'.lookup k = model_dict.lookup k := by
  refine ⟨_, rfl, ?_⟩
  have hfk : k ∉ dictKeys (filterToModelKeys pretrained_dict model_dict) :=
    fun h => hk (keys_of_filterToModelKeys pretrained_dict model_dict k h)
  exact lookup_load_of_lookup_none _ k
    (lookup_eq_none_of_not_mem_keys _ k hfk) model_dict

/-- Witness for C4: the MixStyle parameter key is absent from the
reference weights and survives the load unchanged. -/
theorem pretrained_load_preserves_unmatched_witness :
    ("mixStyleModule.beta" ∉
      dictKeys [("conv1.weight", (1 : ℚ)), ("fc.weight", 2)]) ∧
    (∃ m', load_state_dict
        [("conv1.weight", (0 : ℚ)), ("mixStyleModule.beta", 7)]
        (filterToModelKeys [("conv1.weight", (1 : ℚ)), ("fc.weight", 2)]
          [("conv1.weight", (0 : ℚ)), ("mixStyleModule.beta", 7)]) false = .ok m' ∧
      m'.lookup "mixStyleModule.beta" =
        List.lookup "mixStyleModule.beta"
          [("conv1.weight", (0 : ℚ)), ("mixStyleModule.beta", 7)]) :=
  ⟨by decide,
   pretrained_load_preserves_unmatched
     [("conv1.weight", (1 : ℚ)), ("fc.weight", 2)]
     [("conv1.weight", (0 : ℚ)), ("mixStyleModule.beta", 7)]
     "mixStyleModule.beta" (by decide)⟩

/-! ## Claims about the epoch loop: stepping, checkpoints, selection -/

theorem epochActions_succ (n : ℕ) :
    epochActions (n + 1) = epochActions n ++ iterationActions := by
  rw [epochActions, List.range_succ, List.flatMap_append, epochActions]
  simp

/-- C7: every iteration of `train` performs exactly one `optimizer.step()`
and one `lr_scheduler.step()` — `N` of each over an epoch of `N`
iterations, never once per epoch — and within each iteration the
gradients are zeroed (`optimizer.zero_grad()`) before `loss.backward()`. -/
theorem one_step_per_iteration (iters_per_epoch : ℕ) :
    (epochActions iters_per_epoch).count TrainAction.optStep = iters_per_epoch ∧
    (epochActions iters_per_epoch).count TrainAction.schedStep = iters_per_epoch ∧
    iterationActions.count TrainAction.optStep = 1 ∧
    iterationActions.count TrainAction.schedStep = 1 ∧
    iterationActions.indexOf TrainAction.zeroGrad <
      iterationActions.indexOf TrainAction.backward := by
  refine ⟨?_, ?_, by decide, by decide, by decide⟩
  all_goals
    induction iters_per_epoch with
    | zero => rfl
    | succ n ih =>
      rw [epochActions_succ, List.count_append, ih]
      rfl

/-- C8: after every epoch the current parameter state overwrites the
"latest" checkpoint, and "best" is overwritten with a copy of "latest"
exactly when that epoch's source-validation accuracy strictly exceeds the
best validation accuracy seen in all previous epochs (initialised to 0). -/
theorem latest_and_best_checkpointing {P : Type} (pre : List (Epoch P))
    (e : Epoch P) :
    (runEpochs (pre ++ [e])).latest = some e.params ∧
    (runEpochs (pre ++ [e])).best =
      (if e.valAcc > maxValAcc pre then some e.params
       else (runEpochs pre).best) := by
  have hval : ∀ (es : List (Epoch P)) (s : SelState P),
      (es.foldl epochCheckpoint s).best_val_acc1 =
        es.foldl (fun m x => max x.valAcc m) s.best_val_acc1 := by
    intro es
    induction es with
    | nil => intro s; rfl
    | cons x es ih => intro s; rw [List.foldl_cons, List.foldl_cons, ih]; rfl
  rw [runEpochs, List.foldl_append]
  refine ⟨rfl, ?_⟩
  show (if e.valAcc > (List.foldl epochCheckpoint (initSelState P) pre).best_val_acc1
        then some e.params
        else (List.foldl epochCheckpoint (initSelState P) pre).best) = _
  rw [hval pre (initSelState P)]
  rfl

/-- C9 (noninterference): the checkpoint-selection outcome depends only on
the per-epoch parameter states and source-validation accuracies; two runs
identical except for their target-domain test accuracies produce the same
"latest", the same "best" and the same best-validation record. -/
theorem selection_independent_of_target {P : Type} (es1 es2 : List (Epoch P))
    (h : es1.map (fun e => (e.params, e.valAcc)) =
         es2.map (fun e => (e.params, e.valAcc))) :
    (runEpochs es1).latest = (runEpochs es2).latest ∧
    (runEpochs es1).best = (runEpochs es2).best ∧
    (runEpochs es1).best_val_acc1 = (runEpochs es2).best_val_acc1 := by
  have haux : ∀ (l1 : List (Epoch P)) (l2 : List (Epoch P))
      (s1 s2 : SelState P),
      l1.map (fun e => (e.params, e.valAcc)) =
        l2.map (fun e => (e.params, e.valAcc)) →
      s1.latest = s2.latest → s1.best = s2.best →
      s1.best_val_acc1 = s2.best_val_acc1 →
      ((l1.foldl epochCheckpoint s1).latest =
          (l2.foldl epochCheckpoint s2).latest ∧
       (l1.foldl epochCheckpoint s1).best =
          (l2.foldl epochCheckpoint s2).best ∧
       (l1.foldl epochCheckpoint s1).best_val_acc1 =
          (l2.foldl epochCheckpoint s2).best_val_acc1) := by
    intro l1
    induction l1 with
    | nil =>
      intro l2 s1 s2 hmap h1 h2 h3
      have : l2 = [] := by
        cases l2 with
        | nil => rfl
        | cons x xs => exact absurd hmap (by simp)
      subst this
      exact ⟨h1, h2, h3⟩
    | cons x xs ih =>
      intro l2 s1 s2 hmap h1 h2 h3
      cases l2 with
      | nil => exact absurd hmap (by simp)
      | cons y ys =>
        rw [List.map_cons, List.map_cons] at hmap
        have hhead : (x.params, x.valAcc) = (y.params, y.valAcc) :=
          (List.cons.injEq _ _ _ _ ▸ hmap : _ ∧ _).1
        have htail : xs.map (fun e => (e.params, e.valAcc)) =
            ys.map (fun e => (e.params, e.valAcc)) :=
          (List.cons.injEq _ _ _ _ ▸ hmap : _ ∧ _).2
        have hp : x.params = y.params := congrArg Prod.fst hhead
        have hv : x.valAcc = y.valAcc := congrArg Prod.snd hhead
        rw [List.foldl_cons, List.foldl_cons]
        apply ih ys _ _ htail
        · simp [epochCheckpoint, hp]
        · simp [epochCheckpoint, hp, hv, h2, h3]
        · simp [epochCheckpoint, hv, h3]
  exact haux es1 es2 (initSelState P) (initSelState P) h rfl rfl rfl

/-- Witness for C9: two 2-epoch runs agreeing on parameters and
validation accuracies but with different target-domain accuracies select
the same checkpoints. -/
theorem selection_independent_of_target_witness :
    (([⟨10, 1, 100⟩, ⟨20, 2, 0⟩] : List (Epoch ℕ)).map
        (fun e => (e.params, e.valAcc)) =
      ([⟨10, 1, 3⟩, ⟨20, 2, 50⟩] : List (Epoch ℕ)).map
        (fun e => (e.params, e.valAcc))) ∧
    ((runEpochs ([⟨10, 1, 100⟩, ⟨20, 2, 0⟩] : List (Epoch ℕ))).latest =
       (runEpochs ([⟨10, 1, 3⟩, ⟨20, 2, 50⟩] : List (Epoch ℕ))).latest ∧
     (runEpochs ([⟨10, 1, 100⟩, ⟨20, 2, 0⟩] : List (Epoch ℕ))).best =
       (runEpochs ([⟨10, 1, 3⟩, ⟨20, 2, 50⟩] : List (Epoch ℕ))).best ∧
     (runEpochs ([⟨10, 1, 100⟩, ⟨20, 2, 0⟩] : List (Epoch ℕ))).best_val_acc1 =
       (runEpochs ([⟨10, 1, 3⟩, ⟨20, 2, 50⟩] : List (Epoch ℕ))).best_val_acc1) :=
  ⟨rfl,
   selection_independent_of_target
     ([⟨10, 1, 100⟩, ⟨20, 2, 0⟩] : List (Epoch ℕ))
     ([⟨10, 1, 3⟩, ⟨20, 2, 50⟩] : List (Epoch ℕ)) rfl⟩

end TLLib
